import Mathlib

/-!
Verification of the core algorithmic components of the
Data-driven-Analysis-of-Football-Player-Performance repository:
the text normalizer, the league canonicalizer, the money parsers,
the exact/fuzzy entity resolver, and the paginated URL scrapers.

Each definition is a shallow embedding of the corresponding Python
function; the file is organised as definitions first, theorems after.
-/

namespace Football

/-! ### Text normalizer (`merge_players.normalize_name`)

The Python function:
```
def normalize_name(name):
    if pd.isna(name): return ""
    name = name.lower()
    name = unidecode.unidecode(name)          # remove accents
    name = re.sub(r"[^a-z ]", " ", name)      # remove symbols
    name = re.sub(r"\s+", " ", name).strip()  # clean spaces
    return name
```
Strings are modelled as `List Char` pipelines.  `str.lower` is modelled
on the ASCII range; `unidecode` is modelled as an ASCII-passthrough with a
finite accent table covering the characters exercised here (its behaviour
on ASCII input — identity — is all that the idempotence proof needs). -/

/-- Model of Python `str.lower` (ASCII range). -/
def pyLower (c : Char) : Char :=
  if 65 ≤ c.toNat ∧ c.toNat ≤ 90 then Char.ofNat (c.toNat + 32) else c

/-- Model of `unidecode` on a single character: ASCII characters are kept
unchanged; a finite table transliterates the accented characters that occur
in the data; anything else is dropped (as `unidecode` maps unknown
characters to `""`). -/
def asciifyChar (c : Char) : List Char :=
  if c.toNat < 128 then [c]
  else if c = 'à' ∨ c = 'á' ∨ c = 'â' ∨ c = 'ã' ∨ c = 'ä' then ['a']
  else if c = 'è' ∨ c = 'é' ∨ c = 'ê' ∨ c = 'ë' then ['e']
  else if c = 'ì' ∨ c = 'í' ∨ c = 'î' ∨ c = 'ï' then ['i']
  else if c = 'ò' ∨ c = 'ó' ∨ c = 'ô' ∨ c = 'õ' ∨ c = 'ö' then ['o']
  else if c = 'ù' ∨ c = 'ú' ∨ c = 'û' ∨ c = 'ü' then ['u']
  else if c = 'ñ' then ['n']
  else if c = 'ç' then ['c']
  else []

/-- `unidecode` over a character list. -/
def asciify (l : List Char) : List Char :=
  (l.map asciifyChar).flatten

/-- Is `c` a lowercase ASCII letter (`[a-z]`)? -/
def lowerAlpha (c : Char) : Prop :=
  97 ≤ c.toNat ∧ c.toNat ≤ 122

instance (c : Char) : Decidable (lowerAlpha c) := by
  unfold lowerAlpha; infer_instance

/-- Model of `re.sub(r"[^a-z ]", " ", s)`: a character outside the allowed
alphabet is replaced by a space. -/
def keepAllowed (c : Char) : Char :=
  if lowerAlpha c ∨ c = ' ' then c else ' '

/-- Model of `re.sub(r"\s+", " ", s)` at the point it is applied: the only
whitespace left by the previous substitution is `' '`, and each run of
spaces collapses to a single space. -/
def squeeze : List Char → List Char
  | [] => []
  | [c] => [c]
  | a :: b :: rest =>
    if a = ' ' ∧ b = ' ' then squeeze (b :: rest)
    else a :: squeeze (b :: rest)

/-- Drop leading spaces. -/
def ltrimSp (l : List Char) : List Char := l.dropWhile (· = ' ')

/-- Drop trailing spaces. -/
def rtrimSp (l : List Char) : List Char := (ltrimSp l.reverse).reverse

/-- Model of `.strip()` at the point it is applied (only `' '` can occur
as whitespace there). -/
def trimSp (l : List Char) : List Char := ltrimSp (rtrimSp l)

/-- `normalize_name`, over a nullable string (`none` models `NaN`). -/
def normalize_name (x : Option String) : String :=
  match x with
  | none => ""
  | some s =>
    String.mk (trimSp (squeeze ((asciify (s.data.map pyLower)).map keepAllowed)))

/-! ### League canonicalizer (`clean_sofifa_clubs._normalize_league`)

The Python function strips the `league` and `country` fields, applies a
rename dictionary, then disambiguates the shared labels "Pro League" and
"Super League" by country, and otherwise returns the (renamed) label. -/

/-- The rename dictionary `canon` of `_normalize_league`, as an
association list (identity entries included, as in the source). -/
def canonRenames : List (String × String) :=
  [("Serie A", "Serie A"),
   ("Serie B", "Serie B"),
   ("Premier League", "Premier League"),
   ("Bundesliga", "Bundesliga"),
   ("La Liga", "La Liga"),
   ("Ligue 1", "Ligue 1 Uber Eats"),
   ("Ligue 2", "Ligue 2 BKT"),
   ("Eredivisie", "Eredivisie"),
   ("EFL Championship", "EFL Championship"),
   ("EFL League One", "EFL League One"),
   ("EFL League Two", "EFL League Two"),
   ("Scottish Premiership", "Scottish Premiership")]

/-- Dictionary lookup for `canon`. -/
def canonLookup (l : String) : Option String :=
  (canonRenames.find? (fun p => p.1 = l)).map Prod.snd

/-- Python `str.strip()` (on the whitespace characters occurring here):
drop leading and trailing whitespace. -/
def pyStrip (s : String) : String :=
  String.mk (((s.data.dropWhile (fun c => c = ' ' || c = '\t' || c = '\n' || c = '\r')).reverse.dropWhile
    (fun c => c = ' ' || c = '\t' || c = '\n' || c = '\r')).reverse)

/-- `_normalize_league`, on the two string fields of the row. -/
def normalize_league (leagueRaw countryRaw : String) : String :=
  let league0 := pyStrip leagueRaw
  let country := pyStrip countryRaw
  let league := (canonLookup league0).getD league0
  if league = "Pro League" then
    if country = "Belgium" then "Belgian Pro League"
    else if country = "Saudi Arabia" ∨ country = "Saudi" then "Saudi Pro League"
    else if country = "United Arab Emirates" ∨ country = "UAE" then "UAE Pro League"
    else league
  else if league = "Super League" then
    if country = "Greece" then "Greek Super League"
    else if country = "India" then "Indian Super League"
    else if country = "Switzerland" then "Swiss Super League"
    else if country = "China" then "Chinese Super League"
    else league
  else league

/-! ### Money parsers

`transfermarkt_players.money_to_eur` and
`clean_sofifa_clubs._parse_club_worth`.  Python floats are idealised as
rationals; `float(v)` is modelled by `parseFloat` below, which accepts the
sign/digits/decimal-point core of Python's float syntax (the inputs these
parsers meet).  The `try/except` produces `none` instead of raising, and a
non-string input is the `none` case of the `Option String` argument. -/

/-- Numeric value of a digit list (most significant first). -/
def digitsVal (l : List Char) : Nat :=
  l.foldl (fun a c => 10 * a + (c.toNat - 48)) 0

/-- Are all characters decimal digits? -/
def allDigits (l : List Char) : Bool :=
  l.all (fun c => 48 ≤ c.toNat && c.toNat ≤ 57)

/-- Unsigned decimal: `digits`, `digits.digits`, `.digits` or `digits.`. -/
def parseUnsigned (cs : List Char) : Option ℚ :=
  match cs.splitOn '.' with
  | [ip] =>
    if ip ≠ [] ∧ allDigits ip then some (digitsVal ip) else none
  | [ip, fp] =>
    if (ip ≠ [] ∨ fp ≠ []) ∧ allDigits ip ∧ allDigits fp then
      some ((digitsVal ip : ℚ) + (digitsVal fp : ℚ) / (10 ^ fp.length : ℚ))
    else none
  | _ => none

/-- Model of Python `float(str)` on its sign/digits/point core. -/
def parseFloat (s : String) : Option ℚ :=
  match s.data with
  | '-' :: rest => (parseUnsigned rest).map (fun q => -q)
  | '+' :: rest => parseUnsigned rest
  | cs => parseUnsigned cs

/-- Is `c` whitespace (model of Python `str.strip`s class on the
characters that occur here)? -/
def isWs (c : Char) : Bool :=
  c = ' ' || c = '\t' || c = '\n' || c = '\r'

/-- Strip leading and trailing whitespace from a character list. -/
def trimWs (l : List Char) : List Char :=
  ((l.dropWhile isWs).reverse.dropWhile isWs).reverse

/-- Last `n` characters of a list (`v.endswith` support). -/
def lastN (n : Nat) (l : List Char) : List Char := l.drop (l.length - n)

/-- All but the last `n` characters (`v[:-n]`). -/
def dropLastN (n : Nat) (l : List Char) : List Char := l.take (l.length - n)

/-- `v.replace("€", "").replace(",", "").strip()` — the replaced patterns
are single characters, so `replace` is a filter. -/
def cleanseMoney (l : List Char) : List Char :=
  trimWs ((l.filter (· ≠ '€')).filter (· ≠ ','))

/-- `money_to_eur` (Transfermarkt players scraper).  `none` input models a
non-string value; the result unit is euros. -/
def money_to_eur (val : Option String) : Option ℚ :=
  match val with
  | none => none
  | some s =>
    if trimWs s.data = [] then none
    else
      let v := (cleanseMoney s.data).map pyLower
      if lastN 2 v = ['b', 'n'] then
        (parseFloat (String.mk (dropLastN 2 v))).map (· * 1000000000)
      else if lastN 1 v = ['m'] then
        (parseFloat (String.mk (dropLastN 1 v))).map (· * 1000000)
      else if lastN 1 v = ['k'] then
        (parseFloat (String.mk (dropLastN 1 v))).map (· * 1000)
      else (parseFloat (String.mk v))

/-- Model of Python `str.upper` (ASCII range). -/
def pyUpper (c : Char) : Char :=
  if 97 ≤ c.toNat ∧ c.toNat ≤ 122 then Char.ofNat (c.toNat - 32) else c

/-- `_parse_club_worth` (SoFIFA club cleaner).  `none` input models a
non-string value (`np.nan` result is modelled as `none`); the result unit
is millions of euros. -/
def parse_club_worth (val : Option String) : Option ℚ :=
  match val with
  | none => none
  | some s =>
    let v := (cleanseMoney s.data).map pyUpper
    if lastN 1 v = ['B'] then
      (parseFloat (String.mk (dropLastN 1 v))).map (· * 1000)
    else if lastN 1 v = ['M'] then
      (parseFloat (String.mk (dropLastN 1 v)))
    else if lastN 1 v = ['K'] then
      (parseFloat (String.mk (dropLastN 1 v))).map (· / 1000)
    else if v ≠ [] then
      (parseFloat (String.mk v)).map (· / 1000000)
    else none

/-! ### Fuzzy similarity (`rapidfuzz.fuzz.token_sort_ratio`)

`token_sort_ratio(a, b)` sorts the whitespace-separated tokens of each
string, joins them with single spaces, and returns the normalized Indel
similarity `100 * (1 - dist / (|a'| + |b'|))`, where
`dist = |a'| + |b'| - 2 * LCS(a', b')`.  Scores are exact rationals
(idealising the library's float). -/

/-- One row-extension step of the standard LCS dynamic program:
`prev` is the previous row (length `|b| + 1`), `left` the cell just
computed in the new row. -/
def lcsRowGo (c : Char) : List Char → List Nat → Nat → List Nat
  | [], _, _ => []
  | bj :: bs, prev, left =>
    let diag := prev.headD 0
    let up := prev.tail.headD 0
    let cur := if c = bj then diag + 1 else max left up
    cur :: lcsRowGo c bs prev.tail cur

/-- New LCS row for character `c` against `b`, from the previous row. -/
def lcsRow (c : Char) (b : List Char) (prev : List Nat) : List Nat :=
  0 :: lcsRowGo c b prev 0

/-- Length of a longest common subsequence. -/
def lcs (a b : List Char) : Nat :=
  (a.foldl (fun prev c => lcsRow c b prev)
    (List.replicate (b.length + 1) 0)).getLastD 0

/-- Normalized Indel similarity on 0–100, as used by `fuzz.ratio`:
`dist = m + n - 2·LCS`, similarity `= 100·(m + n - dist)/(m + n)`
(100 for two empty strings). -/
def indelSim (a b : List Char) : ℚ :=
  let t := a.length + b.length
  if t = 0 then 100
  else (100 * (2 * lcs a b) : ℚ) / (t : ℚ)

/-- Python `str.split()`: split on whitespace, dropping empty pieces. -/
def pySplit (s : String) : List String :=
  ((s.data.splitOnP isWs).map String.mk).filter (· ≠ "")

/-- Lexicographic comparison of character lists by code point
(Python string `<`). -/
def charListLt : List Char → List Char → Bool
  | [], [] => false
  | [], _ :: _ => true
  | _ :: _, [] => false
  | a :: as, b :: bs =>
    if a.toNat < b.toNat then true
    else if b.toNat < a.toNat then false
    else charListLt as bs

/-- Insertion of a string into a lexicographically sorted list
(Python `sorted` on `str`). -/
def insertSorted (x : String) : List String → List String
  | [] => [x]
  | y :: ys => if charListLt x.data y.data then x :: y :: ys else y :: insertSorted x ys

/-- Insertion sort by the lexicographic string order. -/
def sortStrings (l : List String) : List String :=
  l.foldr insertSorted []

/-- `" ".join(sorted(s.split()))` — the token-sort preprocessing. -/
def tokenSortPrep (s : String) : String :=
  String.intercalate " " (sortStrings (pySplit s))

/-- `fuzz.token_sort_ratio`. -/
def tokenSortRatio (a b : String) : ℚ :=
  indelSim (tokenSortPrep a).data (tokenSortPrep b).data

/-! ### Entity resolver (`merge_players`)

The script computes `std_name` for both sides, takes a pandas inner merge
on `std_name` as the exact phase, and runs `process.extractOne` with
`token_sort_ratio` over the **full** `tm` name list for every left record
whose name found no exact partner, accepting the best candidate iff its
score is `>= 80`.  Records are represented by their `std_name`; left
records are identified by position. -/

/-- `process.extractOne`: best score and its index, ties by lowest index
(the update is on strictly greater score); `none` on an empty candidate
list (where the Python unpacking of `None` would raise). -/
def bestMatchGo (score : String → String → ℚ) (q : String) :
    List String → Nat → Option (ℚ × Nat) → Option (ℚ × Nat)
  | [], _, best => best
  | n :: rest, i, best =>
    let s := score q n
    let best2 :=
      match best with
      | none => some (s, i)
      | some (b, bi) => if b < s then some (s, i) else some (b, bi)
    bestMatchGo score q rest (i + 1) best2

/-- Best fuzzy candidate of `q` among `names`. -/
def bestMatch (score : String → String → ℚ) (q : String)
    (names : List String) : Option (ℚ × Nat) :=
  bestMatchGo score q names 0 none

/-- The exact phase: the pandas inner merge on `std_name` produces one row
per key-equal (left, right) pair; pairs are recorded by index. -/
def exactPhase (left right : List String) : List (Nat × Nat) :=
  ((left.enum).map (fun p =>
    (right.enum).filterMap (fun q =>
      if p.2 = q.2 then some (p.1, q.1) else none))).flatten

/-- Left records whose `std_name` is absent from the matched-name set,
i.e. has no key-equal right record (`~isin(matched_sofifa_names)`). -/
def unmatchedLeft (left right : List String) : List (Nat × String) :=
  (left.enum).filter (fun p => ¬ p.2 ∈ right)

/-- The fuzzy loop: for each remaining left record take the best candidate
over the full right list; `score >= threshold` emits a fuzzy match,
otherwise the record is unresolved.  `none` models the crash of unpacking
`extractOne`'s `None` when the right list is empty. -/
def fuzzyPhase (score : String → String → ℚ) (θ : ℚ) (right : List String) :
    List (Nat × String) → Option (List (Nat × Nat × ℚ) × List Nat)
  | [] => some ([], [])
  | (i, a) :: rest =>
    match bestMatch score a right with
    | none => none
    | some (s, j) =>
      match fuzzyPhase score θ right rest with
      | none => none
      | some (f, u) =>
        if θ ≤ s then some ((i, j, s) :: f, u) else some (f, i :: u)

/-- The whole resolver run over the two `std_name` columns. -/
def resolve (score : String → String → ℚ) (θ : ℚ) (left right : List String) :
    Option (List (Nat × Nat) × List (Nat × Nat × ℚ) × List Nat) :=
  (fuzzyPhase score θ right (unmatchedLeft left right)).map
    (fun r => (exactPhase left right, r.1, r.2))

/-! ### URL scrapers

`scrape_player_urls.PlayerURLScraper` and
`soFIFAClubs_url_scraper.ClubURLScraper`, modelled over the sequence of
listings pages the site serves (one `List String` of extracted URLs per
page; the sequence ends where pagination ends).  Items are collected in
order with de-duplication; an optional limit caps the collection. -/

/-- Append `u` to `acc` unless already present
(`if u not in self.all_player_urls: append`). -/
def addUnique (acc : List String) (u : String) : List String :=
  if u ∈ acc then acc else acc ++ [u]

/-- Accept one page's items in order, de-duplicated. -/
def addPage (acc : List String) (page : List String) : List String :=
  page.foldl addUnique acc

/-- First-occurrence de-duplication, as in `save_urls_to_csv`. -/
def dedupFirst (l : List String) : List String :=
  l.foldl addUnique []

/-- `PlayerURLScraper.scrape_all_player_urls` collection loop: per page,
dedup-append the page's URLs; if a limit is set and reached, truncate to
the limit exactly and stop; otherwise continue while pages remain. -/
def playerCrawl (limit : Option Nat) : List (List String) → List String → List String
  | [], acc => acc
  | page :: rest, acc =>
    let acc2 := addPage acc page
    match limit with
    | some k => if k ≤ acc2.length then acc2.take k else playerCrawl limit rest acc2
    | none => playerCrawl limit rest acc2

/-- The successive collected states of the player crawl, one per processed
page (the state each `save_urls_to_csv` call persists). -/
def playerStates (limit : Option Nat) : List (List String) → List String → List (List String)
  | [], _ => []
  | page :: rest, acc =>
    let acc2 := addPage acc page
    match limit with
    | some k =>
      if k ≤ acc2.length then [acc2.take k]
      else acc2 :: playerStates limit rest acc2
    | none => acc2 :: playerStates limit rest acc2

/-- Python truthiness of the `limit` option (`if self.limit:`):
`None` and `0` are falsy. -/
def limitTruthy : Option Nat → Bool
  | none => false
  | some k => k ≠ 0

/-- The club scraper's per-page collection of new URLs: skip URLs already
seen (in `acc` or collected earlier on this page), and stop once
`remaining` new URLs have been taken (`rem = none` means no bound). -/
def clubNewGo (acc : List String) (rem : Option Nat) :
    List String → List String → List String
  | [], ns => ns
  | cu :: rest, ns =>
    if cu ∈ acc ∨ cu ∈ ns then clubNewGo acc rem rest ns
    else
      let ns2 := ns ++ [cu]
      match rem with
      | some r => if r ≤ ns2.length then ns2 else clubNewGo acc rem rest ns2
      | none => clubNewGo acc rem rest ns2

/-- New unique URLs of one page, capped at `rem`. -/
def clubNew (acc : List String) (page : List String) (rem : Option Nat) : List String :=
  clubNewGo acc rem page []

/-- `ClubURLScraper.scrape_all_club_urls` loop, threading the collected
list and the checkpoint file contents (`append_urls_to_csv` appends the
new batch before the offset advances).  With a truthy limit, the loop
breaks when `remaining == 0` before a page, collects at most `remaining`
new URLs on the page, and breaks when the limit is reached after the
append. -/
def clubCrawlF (limit : Option Nat) :
    List (List String) → List String → List String → List String × List String
  | [], acc, file => (acc, file)
  | page :: rest, acc, file =>
    if limitTruthy limit ∧ limit.getD 0 ≤ acc.length then (acc, file)
    else
      let rem : Option Nat :=
        if limitTruthy limit then some (limit.getD 0 - acc.length) else none
      let ns := clubNew acc page rem
      let acc2 := acc ++ ns
      let file2 := file ++ ns
      if limitTruthy limit ∧ limit.getD 0 ≤ acc2.length then (acc2, file2)
      else clubCrawlF limit rest acc2 file2

/-- The collected URLs of a club scraper run. -/
def clubCrawl (limit : Option Nat) (pages : List (List String))
    (acc : List String) : List String :=
  (clubCrawlF limit pages acc []).1

/-! #### Failure handling of the player scraper (C7)

Each page fetch is retried up to `max_retries = 3`; an attempt either
succeeds with the page's URLs and the next-button flag, raises, or lands
on a bot-challenge interstitial. -/

/-- One fetch attempt. -/
inductive Attempt where
  | good (items : List String) (hasNext : Bool)
  | exc
  | challenge
deriving DecidableEq

/-- The inner retry loop consulted with attempt outcomes `a 0`, `a 1`,
`a 2`: the first successful attempt wins; three non-successes exhaust
`max_retries`. -/
def tryFetch3 (a : Nat → Attempt) : Option (List String × Bool) :=
  match a 0 with
  | .good items hn => some (items, hn)
  | _ =>
    match a 1 with
    | .good items hn => some (items, hn)
    | _ =>
      match a 2 with
      | .good items hn => some (items, hn)
      | _ => none

/-- Outcome of one page's fetch (after the retry loop): `ok` carries the
extracted URLs and the next-button flag; `err` is a page whose three
attempts all raised, which makes the loop set `has_next = False`. -/
inductive Fetch where
  | ok (items : List String) (hasNext : Bool)
  | err
deriving DecidableEq

/-- The player scraper's page loop under fetch failures (no limit set):
a page whose retries are exhausted by exceptions sets `has_next = False`,
ending the whole crawl; a fetched page's items are collected and the loop
continues only while the page reports a Next button. -/
def playerCrawlE : List Fetch → List String → List String
  | [], acc => acc
  | .err :: _, acc => acc
  | .ok items hn :: rest, acc =>
    let acc2 := addPage acc items
    if hn then playerCrawlE rest acc2 else acc2

/-! ## Theorems -/

/-- C10: with `limit = 0` the truthiness test `if self.limit:` fails, so the
club scraper's cap machinery is inert: a run with `limit = 0` produces the
same collected list and the same checkpoint file as a run with
`limit = None`, for every page sequence and every starting state. -/
theorem C10_zero_limit_is_no_cap :
    ∀ (pages : List (List String)) (acc file : List String),
      clubCrawlF (some 0) pages acc file = clubCrawlF none pages acc file := by
  intro pages
  induction pages with
  | nil => intro acc file; rfl
  | cons page rest ih =>
    intro acc file
    show clubCrawlF (some 0) (page :: rest) acc file
        = clubCrawlF none (page :: rest) acc file
    simp only [clubCrawlF, limitTruthy]
    simpa using ih (acc ++ clubNew acc page none) (file ++ clubNew acc page none)

/-- C4 counterexample: `_normalize_league` strips its input, so a label
carrying surrounding whitespace — one that no rename rule and no
ambiguity rule touches — is *not* returned unchanged. -/
theorem C4_counterexample :
    normalize_league "  Mystery League  " "Nowhere" = "Mystery League" ∧
      ("Mystery League" : String) ≠ "  Mystery League  " := by
  constructor
  · rfl
  · decide

/-- C4 (amended): the canonicalizer is a total function on string pairs;
a *whitespace-trimmed* label with no rename rule and no ambiguity rule is
returned unchanged; `("Super League", "Switzerland")` maps to
`"Swiss Super League"` and `("Mystery League", "Nowhere")` to
`"Mystery League"`. -/
theorem C4_canonicalizer_amended :
    (∀ l c : String, pyStrip l = l → canonLookup l = none →
        l ≠ "Pro League" → l ≠ "Super League" → normalize_league l c = l)
    ∧ normalize_league "Super League" "Switzerland" = "Swiss Super League"
    ∧ normalize_league "Mystery League" "Nowhere" = "Mystery League" := by
  refine ⟨?_, rfl, rfl⟩
  intro l c htrim hcanon hpro hsuper
  unfold normalize_league
  simp only [htrim, hcanon, Option.getD_none]
  rw [if_neg hpro, if_neg hsuper]

/-- C4 witness: the amended theorem applied at a concrete unmapped label. -/
theorem C4_witness :
    normalize_league "Mystery League" "Nowhere" = "Mystery League" :=
  C4_canonicalizer_amended.1 "Mystery League" "Nowhere" rfl rfl
    (by decide) (by decide)

/-- C7 counterexample: in the player URL scraper, a page whose fetch
retries are exhausted by exceptions sets `has_next = False` and ends the
whole crawl, so the items of the following page are *not* collected — the
run is aborted rather than skipping only the failed page. -/
theorem C7_counterexample :
    playerCrawlE [Fetch.err, Fetch.ok ["u"] false] [] = [] ∧
      playerCrawlE [Fetch.ok ["u"] false] [] = ["u"] ∧
      playerCrawlE [Fetch.err, Fetch.ok ["u"] false] []
        ≠ playerCrawlE [Fetch.ok ["u"] false] [] := by
  refine ⟨rfl, rfl, ?_⟩
  decide

/-- C7 (amended): the fetch retry loop consults at most three attempts per
page entry (its outcome depends only on attempts 0, 1, 2), and when a
page's retries are exhausted by exceptions the player scraper stops
pagination entirely — no subsequent page contributes any item — instead of
skipping only that page. -/
theorem C7_retry_amended :
    (∀ a b : Nat → Attempt,
        a 0 = b 0 → a 1 = b 1 → a 2 = b 2 → tryFetch3 a = tryFetch3 b)
    ∧ (∀ (rest : List Fetch) (acc : List String),
        playerCrawlE (Fetch.err :: rest) acc = acc) := by
  constructor
  · intro a b h0 h1 h2
    unfold tryFetch3
    rw [h0, h1, h2]
  · intro rest acc
    rfl

/-- C7 witness: the amended theorem at concrete attempt functions and a
concrete aborted crawl. -/
theorem C7_witness :
    tryFetch3 (fun _ => Attempt.exc) = tryFetch3 (fun n => if n < 3 then Attempt.exc else Attempt.good ["x"] true)
      ∧ playerCrawlE [Fetch.err, Fetch.ok ["y"] true] ["x"] = ["x"] := by
  constructor
  · exact C7_retry_amended.1 _ _ rfl rfl rfl
  · exact C7_retry_amended.2 [Fetch.ok ["y"] true] ["x"]

/-! ### Shared list lemmas -/

/-- `dropWhile` is the identity when no element satisfies the predicate...
only the head matters, but this form is convenient. -/
theorem dropWhile_eq_self_of_all {p : Char → Bool} {l : List Char}
    (h : ∀ c ∈ l, p c = false) : l.dropWhile p = l := by
  cases l with
  | nil => rfl
  | cons a t => simp [List.dropWhile_cons, h a (List.mem_cons_self a t)]

/-- `map` is the identity when `f` fixes every element. -/
theorem map_eq_self_of_all {f : Char → Char} {l : List Char}
    (h : ∀ c ∈ l, f c = c) : l.map f = l := by
  induction l with
  | nil => rfl
  | cons a t ih =>
    simp only [List.map_cons, h a (List.mem_cons_self a t)]
    rw [ih (fun c hc => h c (List.mem_cons_of_mem a hc))]

/-- The last `n + 1` characters of `l ++ [x]` are the last `n` of `l`
followed by `x`. -/
theorem lastN_append_single (l : List Char) (x : Char) (n : Nat) (hn : n ≠ 0) :
    lastN n (l ++ [x]) = lastN (n - 1) l ++ [x] := by
  unfold lastN
  have h1 : (l ++ [x]).length - n = l.length - (n - 1) := by
    rw [List.length_append, List.length_singleton]
    omega
  rw [h1, List.drop_append_of_le_length (by omega)]

/-- Dropping the final character of `l ++ [x]` gives back `l`. -/
theorem dropLastN_one_append (l : List Char) (x : Char) :
    dropLastN 1 (l ++ [x]) = l := by
  unfold dropLastN
  rw [List.length_append, List.length_singleton]
  simp only [Nat.add_sub_cancel]
  exact List.take_left l [x]

/-- C8: the money parsers are total `Option`-valued functions: a non-string
input yields `none`; a clean numeric string with the million suffix `m` is
converted to euros by the claimed multiplier (with `none` propagated when
the numeral itself does not parse); and the remaining recognised suffixes,
the unit conventions of the two parsers, and the null-resolution of
unparsable strings hold at representative inputs. -/
theorem C8_money_parsers :
    money_to_eur none = none
    ∧ parse_club_worth none = none
    ∧ (∀ s : List Char,
        (∀ c ∈ s, c ≠ '€' ∧ c ≠ ',' ∧ isWs c = false ∧ pyLower c = c) →
        s ≠ [] →
        money_to_eur (some (String.mk (s ++ ['m'])))
          = (parseFloat (String.mk s)).map (· * 1000000))
    ∧ money_to_eur (some "€1.5m") = some 1500000
    ∧ money_to_eur (some "2k") = some 2000
    ∧ money_to_eur (some "3bn") = some 3000000000
    ∧ money_to_eur (some "abc") = none
    ∧ money_to_eur (some "  ") = none
    ∧ parse_club_worth (some "€1.5B") = some 1500
    ∧ parse_club_worth (some "750M") = some 750
    ∧ parse_club_worth (some "500K") = some (1/2)
    ∧ parse_club_worth (some "2000000") = some 2
    ∧ parse_club_worth (some "x") = none := by
  refine ⟨rfl, rfl, ?_, ?_, ?_, ?_, by decide, by decide, ?_, ?_, ?_, ?_, by decide⟩
  · intro s hs hne
    have hs1 : ∀ c ∈ s ++ ['m'], isWs c = false := by
      intro c hc
      rcases List.mem_append.1 hc with h | h
      · exact (hs c h).2.2.1
      · simp only [List.mem_singleton] at h
        subst h; rfl
    have hnm : ∀ c ∈ s ++ ['m'], (c ≠ '€' ∧ c ≠ ',') := by
      intro c hc
      rcases List.mem_append.1 hc with h | h
      · exact ⟨(hs c h).1, (hs c h).2.1⟩
      · simp only [List.mem_singleton] at h
        subst h
        exact ⟨by decide, by decide⟩
    have htrim : trimWs (s ++ ['m']) = s ++ ['m']  := by
      unfold trimWs
      rw [dropWhile_eq_self_of_all hs1]
      rw [dropWhile_eq_self_of_all (fun c hc =>
        hs1 c (List.mem_reverse.1 hc))]
      exact List.reverse_reverse _
    have hfil : cleanseMoney (s ++ ['m']) = s ++ ['m'] := by
      unfold cleanseMoney
      rw [List.filter_eq_self.2 (fun c hc =>
        decide_eq_true (hnm c hc).1)]
      rw [List.filter_eq_self.2 (fun c hc =>
        decide_eq_true (hnm c hc).2)]
      exact htrim
    have hlow : (s ++ ['m']).map pyLower = s ++ ['m'] :=
      map_eq_self_of_all (fun c hc => by
        rcases List.mem_append.1 hc with h | h
        · exact (hs c h).2.2.2
        · simp only [List.mem_singleton] at h
          subst h; rfl)
    show (if trimWs (String.mk (s ++ ['m'])).data = [] then none else _) = _
    have hne2 : trimWs (String.mk (s ++ ['m'])).data ≠ [] := by
      show trimWs (s ++ ['m']) ≠ []
      rw [htrim]
      simp
    rw [if_neg hne2]
    show (let v := (cleanseMoney (s ++ ['m'])).map pyLower; _) = _
    rw [hfil, hlow]
    have hbn : lastN 2 (s ++ ['m']) ≠ ['b', 'n'] := by
      intro h
      have h2 := congrArg List.getLast? h
      rw [lastN_append_single _ _ 2 (by decide)] at h2
      rw [List.getLast?_concat] at h2
      simp at h2
    have hm : lastN 1 (s ++ ['m']) = ['m'] := by
      rw [lastN_append_single _ _ 1 (by decide)]
      unfold lastN
      rw [Nat.sub_zero, List.drop_length]
      rfl
    rw [if_neg hbn, hm, if_pos rfl, dropLastN_one_append]
  · rw [show money_to_eur (some "€1.5m") = (parseFloat "1.5").map (fun x => x * 1000000) from rfl,
      show parseFloat "1.5" = some ((Nat.cast 1 : ℚ) + (Nat.cast 5 : ℚ) / 10 ^ 1) from rfl,
      Option.map_some', Option.some_inj]
    norm_num
  · rw [show money_to_eur (some "2k") = (parseFloat "2").map (fun x => x * 1000) from rfl,
      show parseFloat "2" = some ((Nat.cast 2 : ℚ)) from rfl,
      Option.map_some', Option.some_inj]
    norm_num
  · rw [show money_to_eur (some "3bn") = (parseFloat "3").map (fun x => x * 1000000000) from rfl,
      show parseFloat "3" = some ((Nat.cast 3 : ℚ)) from rfl,
      Option.map_some', Option.some_inj]
    norm_num
  · rw [show parse_club_worth (some "€1.5B") = (parseFloat "1.5").map (fun x => x * 1000) from rfl,
      show parseFloat "1.5" = some ((Nat.cast 1 : ℚ) + (Nat.cast 5 : ℚ) / 10 ^ 1) from rfl,
      Option.map_some', Option.some_inj]
    norm_num
  · rw [show parse_club_worth (some "750M") = parseFloat "750" from rfl,
      show parseFloat "750" = some ((Nat.cast 750 : ℚ)) from rfl,
      Option.some_inj]
    norm_num
  · rw [show parse_club_worth (some "500K") = (parseFloat "500").map (fun x => x / 1000) from rfl,
      show parseFloat "500" = some ((Nat.cast 500 : ℚ)) from rfl,
      Option.map_some', Option.some_inj]
    norm_num
  · rw [show parse_club_worth (some "2000000") = (parseFloat "2000000").map (fun x => x / 1000000) from rfl,
      show parseFloat "2000000" = some ((Nat.cast 2000000 : ℚ)) from rfl,
      Option.map_some', Option.some_inj]
    norm_num

/-- C8 witness: the general million-suffix clause applied at `"1.5"`. -/
theorem C8_witness :
    money_to_eur (some "1.5m") = (parseFloat "1.5").map (· * 1000000) := by
  have h := C8_money_parsers.2.2.1 ['1', '.', '5'] (by decide) (by decide)
  exact h

/-! ### Resolver lemmas -/

/-- Evaluation rule for `indelSim` in terms of precomputed length and LCS. -/
theorem indelSim_eval (a b : List Char) (t L : Nat)
    (ht : a.length + b.length = t) (hL : lcs a b = L) (h : t ≠ 0) :
    indelSim a b = (100 * (2 * L) : ℚ) / (t : ℚ) := by
  unfold indelSim
  rw [ht, hL, if_neg h]

/-- `extractOne` on a single candidate returns that candidate's score. -/
theorem bestMatch_singleton (sc : String → String → ℚ) (q r : String) :
    bestMatch sc q [r] = some (sc q r, 0) := rfl

/-- `token_sort_ratio "abcd" "abcdef" = 80` (the exact threshold). -/
theorem tsr_abcd : tokenSortRatio "abcd" "abcdef" = 80 := by
  have h : tokenSortRatio "abcd" "abcdef" = indelSim "abcd".data "abcdef".data := rfl
  rw [h, indelSim_eval "abcd".data "abcdef".data 10 4 (by decide) (by decide) (by decide)]
  norm_num

/-- `token_sort_ratio "abc" "abcdef" = 200/3` (below the threshold). -/
theorem tsr_abc : tokenSortRatio "abc" "abcdef" = 200 / 3 := by
  have h : tokenSortRatio "abc" "abcdef" = indelSim "abc".data "abcdef".data := rfl
  rw [h, indelSim_eval "abc".data "abcdef".data 9 3 (by decide) (by decide) (by decide)]
  norm_num

/-- `token_sort_ratio "jon smith" "john smith" = 1800/19 ≈ 94.7`. -/
theorem tsr_jon : tokenSortRatio "jon smith" "john smith" = 1800 / 19 := by
  have h : tokenSortRatio "jon smith" "john smith" = indelSim "jon smith".data "john smith".data := rfl
  rw [h, indelSim_eval "jon smith".data "john smith".data 19 9 (by decide) (by decide) (by decide)]
  norm_num

/-- `token_sort_ratio "john smit" "john smith" = 1800/19 ≈ 94.7`. -/
theorem tsr_smit : tokenSortRatio "john smit" "john smith" = 1800 / 19 := by
  have h : tokenSortRatio "john smit" "john smith" = indelSim "john smit".data "john smith".data := rfl
  rw [h, indelSim_eval "john smit".data "john smith".data 19 9 (by decide) (by decide) (by decide)]
  norm_num

/-- `token_sort_ratio "bob" "ana" = 0`. -/
theorem tsr_bob : tokenSortRatio "bob" "ana" = 0 := by
  have h : tokenSortRatio "bob" "ana" = indelSim "bob".data "ana".data := rfl
  rw [h, indelSim_eval "bob".data "ana".data 6 0 (by decide) (by decide) (by decide)]
  norm_num

/-- Unfolding rule of the fuzzy loop when the best candidate is accepted. -/
theorem fuzzyPhase_accept (sc : String → String → ℚ) (θ : ℚ)
    (right : List String) (i : Nat) (a : String) (rest : List (Nat × String))
    (s : ℚ) (j : Nat) (f : List (Nat × Nat × ℚ)) (u : List Nat)
    (hb : bestMatch sc a right = some (s, j))
    (hr : fuzzyPhase sc θ right rest = some (f, u)) (hθ : θ ≤ s) :
    fuzzyPhase sc θ right ((i, a) :: rest) = some ((i, j, s) :: f, u) := by
  simp only [fuzzyPhase, hb, hr]
  rw [if_pos hθ]

/-- Unfolding rule of the fuzzy loop when the best candidate is rejected. -/
theorem fuzzyPhase_reject (sc : String → String → ℚ) (θ : ℚ)
    (right : List String) (i : Nat) (a : String) (rest : List (Nat × String))
    (s : ℚ) (j : Nat) (f : List (Nat × Nat × ℚ)) (u : List Nat)
    (hb : bestMatch sc a right = some (s, j))
    (hr : fuzzyPhase sc θ right rest = some (f, u)) (hθ : ¬ θ ≤ s) :
    fuzzyPhase sc θ right ((i, a) :: rest) = some (f, i :: u) := by
  simp only [fuzzyPhase, hb, hr]
  rw [if_neg hθ]

/-- A key absent from an indexed右 association list matches no entry. -/
theorem filterMap_pair_nil {name : String} {i : Nat} (rl : List (Nat × String))
    (h : ¬ name ∈ rl.map Prod.snd) :
    rl.filterMap (fun q => if name = q.2 then some (i, q.1) else none) = [] := by
  induction rl with
  | nil => rfl
  | cons q t ih =>
    rw [List.filterMap_cons]
    have h1 : name ≠ q.2 := by
      intro e
      exact h (by rw [List.map_cons, e]; exact List.mem_cons_self _ _)
    rw [if_neg h1]
    exact ih (fun hm => h (by rw [List.map_cons]; exact List.mem_cons_of_mem _ hm))

/-- Over a duplicate-free indexed association list, a present key matches
exactly one entry. -/
theorem filterMap_pair_single {name : String} {i : Nat}
    (rl : List (Nat × String)) (hnd : (rl.map Prod.snd).Nodup)
    (hm : name ∈ rl.map Prod.snd) :
    ∃ j, rl.filterMap (fun q => if name = q.2 then some (i, q.1) else none)
      = [(i, j)] := by
  induction rl with
  | nil => simp at hm
  | cons q t ih =>
    rw [List.map_cons, List.nodup_cons] at hnd
    rw [List.filterMap_cons]
    by_cases he : name = q.2
    · rw [if_pos he]
      rw [filterMap_pair_nil t (he ▸ hnd.1)]
      exact ⟨q.1, rfl⟩
    · rw [if_neg he]
      rw [List.map_cons] at hm
      rcases List.mem_cons.1 hm with h | h
      · exact absurd h he
      · exact ih hnd.2 h

/-- Partition invariant of the resolver over a generic indexed left list:
when no two right records share a name, the left indices of the exact
pairs, the fuzzy matches and the unresolved records together are a
permutation of all left indices. -/
theorem resolver_partition_aux (sc : String → String → ℚ) (θ : ℚ)
    (right : List String) (hnd : right.Nodup) :
    ∀ (l : List (Nat × String)) (f : List (Nat × Nat × ℚ)) (u : List Nat),
      fuzzyPhase sc θ right (l.filter (fun p => ¬ p.2 ∈ right)) = some (f, u) →
      List.Perm
        (((l.map (fun p => (right.enum.filterMap (fun q =>
            if p.2 = q.2 then some (p.1, q.1) else none)))).flatten.map Prod.fst)
          ++ (f.map (fun t => t.1) ++ u))
        (l.map Prod.fst) := by
  intro l
  induction l with
  | nil =>
    intro f u h
    rw [show fuzzyPhase sc θ right
        (List.filter (fun p => ¬ p.2 ∈ right) []) = some ([], []) from rfl] at h
    rw [Option.some_inj] at h
    have hf : f = [] := (congrArg Prod.fst h).symm
    have hu : u = [] := (congrArg Prod.snd h).symm
    subst hf; subst hu
    simp
  | cons p t ih =>
    obtain ⟨i, a⟩ := p
    intro f u h
    rw [List.filter_cons] at h
    by_cases hp : a ∈ right
    · rw [if_neg (by simp [hp])] at h
      have hperm := ih f u h
      obtain ⟨j, hj⟩ := filterMap_pair_single right.enum
        (by rw [List.enum_map_snd]; exact hnd)
        (by rw [List.enum_map_snd]; exact hp)
      simp only [List.map_cons, List.flatten_cons, List.map_append]
      rw [hj]
      simp only [List.map_cons, List.map_nil, List.singleton_append,
        List.cons_append]
      exact hperm.cons i
    · rw [if_pos (by simp [hp])] at h
      simp only [fuzzyPhase] at h
      cases hb : bestMatch sc a right with
      | none => rw [hb] at h; cases h
      | some sj =>
        obtain ⟨s, j⟩ := sj
        simp only [hb] at h
        cases hr : fuzzyPhase sc θ right (t.filter (fun p => ¬ p.2 ∈ right)) with
        | none => rw [hr] at h; cases h
        | some fu =>
          obtain ⟨f0, u0⟩ := fu
          simp only [hr] at h
          have hnil : right.enum.filterMap
              (fun q => if a = q.2 then some (i, q.1) else none) = [] :=
            filterMap_pair_nil right.enum (by rw [List.enum_map_snd]; exact hp)
          rw [List.map_cons, List.flatten_cons, List.map_append, hnil]
          simp only [List.map_nil, List.nil_append, List.map_cons]
          by_cases hθ : θ ≤ s
          · rw [if_pos hθ, Option.some_inj] at h
            have hf : f = (i, j, s) :: f0 := (congrArg Prod.fst h).symm
            have hu : u = u0 := (congrArg Prod.snd h).symm
            subst hf; subst hu
            simp only [List.map_cons, List.cons_append]
            exact List.perm_middle.trans ((ih f0 u hr).cons i)
          · rw [if_neg hθ, Option.some_inj] at h
            have hf : f = f0 := (congrArg Prod.fst h).symm
            have hu : u = i :: u0 := (congrArg Prod.snd h).symm
            subst hf; subst hu
            rw [← List.append_assoc]
            refine List.perm_middle.trans ?_
            rw [List.append_assoc]
            exact (ih f u0 hr).cons i

/-- Every fuzzy match was selected by `extractOne` over the *entire* right
list, with a score at or above the threshold. -/
theorem resolver_fullpool_aux (sc : String → String → ℚ) (θ : ℚ)
    (right : List String) :
    ∀ (l : List (Nat × String)) (f : List (Nat × Nat × ℚ)) (u : List Nat),
      fuzzyPhase sc θ right l = some (f, u) →
      ∀ p ∈ f, ∃ a, (p.1, a) ∈ l
        ∧ bestMatch sc a right = some (p.2.2, p.2.1) ∧ θ ≤ p.2.2 := by
  intro l
  induction l with
  | nil =>
    intro f u h p hp
    rw [show fuzzyPhase sc θ right [] = some ([], []) from rfl,
      Option.some_inj] at h
    have hf : f = [] := (congrArg Prod.fst h).symm
    subst hf
    cases hp
  | cons q t ih =>
    obtain ⟨i, a⟩ := q
    intro f u h p hp
    simp only [fuzzyPhase] at h
    cases hb : bestMatch sc a right with
    | none => rw [hb] at h; cases h
    | some sj =>
      obtain ⟨s, j⟩ := sj
      simp only [hb] at h
      cases hr : fuzzyPhase sc θ right t with
      | none => rw [hr] at h; cases h
      | some fu =>
        obtain ⟨f0, u0⟩ := fu
        simp only [hr] at h
        by_cases hθ : θ ≤ s
        · rw [if_pos hθ, Option.some_inj] at h
          have hf : f = (i, j, s) :: f0 := (congrArg Prod.fst h).symm
          subst hf
          rcases List.mem_cons.1 hp with he | hm
          · subst he
            exact ⟨a, List.mem_cons_self _ _, hb, hθ⟩
          · obtain ⟨a2, hm2, hb2, hθ2⟩ := ih f0 u0 hr p hm
            exact ⟨a2, List.mem_cons_of_mem _ hm2, hb2, hθ2⟩
        · rw [if_neg hθ, Option.some_inj] at h
          have hf : f = f0 := (congrArg Prod.fst h).symm
          subst hf
          obtain ⟨a2, hm2, hb2, hθ2⟩ := ih f u0 hr p hp
          exact ⟨a2, List.mem_cons_of_mem _ hm2, hb2, hθ2⟩

/-- The fuzzy loop sends each left record to the fuzzy matches exactly
when its best score clears the threshold, and to the unresolved list when
it falls below. -/
theorem resolver_threshold_aux (sc : String → String → ℚ) (θ : ℚ)
    (right : List String) :
    ∀ (l : List (Nat × String)) (f : List (Nat × Nat × ℚ)) (u : List Nat),
      fuzzyPhase sc θ right l = some (f, u) →
      ∀ i a, (i, a) ∈ l → ∀ s j, bestMatch sc a right = some (s, j) →
        (θ ≤ s → (i, j, s) ∈ f) ∧ (s < θ → i ∈ u) := by
  intro l
  induction l with
  | nil =>
    intro f u h i a hmem
    cases hmem
  | cons q t ih =>
    obtain ⟨i0, a0⟩ := q
    intro f u h i a hmem s j hb
    simp only [fuzzyPhase] at h
    cases hb0 : bestMatch sc a0 right with
    | none => rw [hb0] at h; cases h
    | some sj =>
      obtain ⟨s0, j0⟩ := sj
      simp only [hb0] at h
      cases hr : fuzzyPhase sc θ right t with
      | none => rw [hr] at h; cases h
      | some fu =>
        obtain ⟨f0, u0⟩ := fu
        simp only [hr] at h
        rcases List.mem_cons.1 hmem with he | hm
        · have hi : i = i0 := congrArg Prod.fst he
          have ha : a = a0 := congrArg Prod.snd he
          subst hi; subst ha
          rw [hb0, Option.some_inj] at hb
          have hs : s = s0 := (congrArg Prod.fst hb).symm
          have hj : j = j0 := (congrArg Prod.snd hb).symm
          subst hs; subst hj
          by_cases hθ : θ ≤ s
          · rw [if_pos hθ, Option.some_inj] at h
            have hf : f = (i, j, s) :: f0 := (congrArg Prod.fst h).symm
            subst hf
            exact ⟨fun _ => List.mem_cons_self _ _,
              fun hlt => absurd hθ (not_le.2 hlt)⟩
          · rw [if_neg hθ, Option.some_inj] at h
            have hf : u = i :: u0 := (congrArg Prod.snd h).symm
            subst hf
            exact ⟨fun hle => absurd hle hθ,
              fun _ => List.mem_cons_self _ _⟩
        · by_cases hθ : θ ≤ s0
          · rw [if_pos hθ, Option.some_inj] at h
            have hf : f = (i0, j0, s0) :: f0 := (congrArg Prod.fst h).symm
            have hu : u = u0 := (congrArg Prod.snd h).symm
            subst hf; subst hu
            have := ih f0 u hr i a hm s j hb
            exact ⟨fun hle => List.mem_cons_of_mem _ (this.1 hle), this.2⟩
          · rw [if_neg hθ, Option.some_inj] at h
            have hf : f = f0 := (congrArg Prod.fst h).symm
            have hu : u = i0 :: u0 := (congrArg Prod.snd h).symm
            subst hf; subst hu
            have := ih f u0 hr i a hm s j hb
            exact ⟨this.1, fun hlt => List.mem_cons_of_mem _ (this.2 hlt)⟩

/-- C1 counterexample: the exact phase is a pandas inner merge, so when two
right records share the key of one left record the left record produces
*two* exact matches and the partition count breaks:
`|exact| + |fuzzy| + |unresolved| = 2 ≠ 1 = |left|`. -/
theorem C1_counterexample :
    resolve tokenSortRatio 80 ["ana"] ["ana", "ana"]
      = some ([(0, 0), (0, 1)], [], [])
    ∧ ([(0, 0), (0, 1)] : List (Nat × Nat)).length
        + ([] : List (Nat × Nat × ℚ)).length + ([] : List Nat).length
      ≠ (["ana"] : List String).length := by
  constructor
  · rfl
  · decide

/-- C1 (amended): when no two right records share a normalized name (and
the run completes, i.e. the fuzzy lookup never unpacks an empty candidate
list), the resolver partitions the left records exactly: the left indices
of the exact, fuzzy and unresolved outputs together are a permutation of
all left indices — each left record appears in exactly one partition —
and the three sizes sum to `|left|`. -/
theorem C1_partition_amended (sc : String → String → ℚ) (θ : ℚ)
    (left right : List String) (e : List (Nat × Nat))
    (f : List (Nat × Nat × ℚ)) (u : List Nat)
    (hnd : right.Nodup)
    (h : resolve sc θ left right = some (e, f, u)) :
    List.Perm (e.map Prod.fst ++ (f.map (fun t => t.1) ++ u))
      (List.range left.length)
    ∧ e.length + f.length + u.length = left.length := by
  unfold resolve at h
  cases hfu : fuzzyPhase sc θ right (unmatchedLeft left right) with
  | none => rw [hfu] at h; cases h
  | some r =>
    obtain ⟨f0, u0⟩ := r
    rw [hfu, Option.map_some', Option.some_inj] at h
    have he2 : e = exactPhase left right := (congrArg Prod.fst h).symm
    have hf2 : f = f0 := (congrArg (fun x => x.2.1) h).symm
    have hu2 : u = u0 := (congrArg (fun x => x.2.2) h).symm
    subst he2
    have haux := resolver_partition_aux sc θ right hnd left.enum f0 u0 hfu
    rw [List.enum_map_fst] at haux
    rw [hf2, hu2]
    refine ⟨haux, ?_⟩
    have hlen := haux.length_eq
    simp only [exactPhase, List.length_append, List.length_map,
      List.length_range] at hlen ⊢
    omega

/-- C1 witness: the amended theorem at a duplicate-free right set. -/
theorem C1_witness :
    List.Perm ([0] ++ (([] : List Nat) ++ [1])) (List.range 2)
      ∧ 1 + 0 + 1 = 2 := by
  have hbm : bestMatch tokenSortRatio "bob" ["ana"] = some ((0 : ℚ), 0) := by
    rw [bestMatch_singleton, tsr_bob]
  have hfz : fuzzyPhase tokenSortRatio 80 ["ana"] [(1, "bob")]
      = some ([], [1]) :=
    fuzzyPhase_reject _ _ _ 1 "bob" [] 0 0 [] [] hbm rfl (by norm_num)
  have hres : resolve tokenSortRatio 80 ["ana", "bob"] ["ana"]
      = some ([(0, 0)], [], [1]) := by
    show (fuzzyPhase tokenSortRatio 80 ["ana"]
        (unmatchedLeft ["ana", "bob"] ["ana"])).map _ = _
    rw [show unmatchedLeft ["ana", "bob"] ["ana"] = [(1, "bob")] from rfl, hfz]
    rfl
  have h := C1_partition_amended tokenSortRatio 80 ["ana", "bob"] ["ana"]
    [(0, 0)] [] [1] (by decide) hres
  exact ⟨h.1, by simp⟩

/-- C2 counterexample: right records are never removed from the fuzzy
candidate pool (`tm_names` is the full right list and no entry is deleted
on a match), so the single right record is consumed by *two* fuzzy
matches: the emitted right indices are `[0, 0]`. -/
theorem C2_counterexample :
    resolve tokenSortRatio 80 ["jon smith", "john smit"] ["john smith"]
      = some ([], [(0, 0, 1800 / 19), (1, 0, 1800 / 19)], [])
    ∧ ¬ (([(0, 0, (1800 / 19 : ℚ)), (1, 0, 1800 / 19)].map
        (fun t => t.2.1)).Nodup) := by
  have hb1 : bestMatch tokenSortRatio "jon smith" ["john smith"]
      = some ((1800 / 19 : ℚ), 0) := by
    rw [bestMatch_singleton, tsr_jon]
  have hb2 : bestMatch tokenSortRatio "john smit" ["john smith"]
      = some ((1800 / 19 : ℚ), 0) := by
    rw [bestMatch_singleton, tsr_smit]
  have hf2 : fuzzyPhase tokenSortRatio 80 ["john smith"] [(1, "john smit")]
      = some ([(1, 0, 1800 / 19)], []) :=
    fuzzyPhase_accept _ _ _ 1 "john smit" [] (1800 / 19) 0 [] [] hb2 rfl
      (by norm_num)
  have hf1 : fuzzyPhase tokenSortRatio 80 ["john smith"]
      [(0, "jon smith"), (1, "john smit")]
      = some ([(0, 0, 1800 / 19), (1, 0, 1800 / 19)], []) :=
    fuzzyPhase_accept _ _ _ 0 "jon smith" [(1, "john smit")] (1800 / 19) 0
      [(1, 0, 1800 / 19)] [] hb1 hf2 (by norm_num)
  constructor
  · show (fuzzyPhase tokenSortRatio 80 ["john smith"]
        (unmatchedLeft ["jon smith", "john smit"] ["john smith"])).map _ = _
    rw [show unmatchedLeft ["jon smith", "john smit"] ["john smith"]
        = [(0, "jon smith"), (1, "john smit")] from rfl, hf1]
    rfl
  · simp

/-- C2 (amended): right records are consumed greedily but *not* removed:
every emitted fuzzy match pairs its left record with the best-scoring
candidate over the **entire** right list (exact-phase matches included,
previously emitted fuzzy partners included), with a score at or above the
threshold — so the same right index may recur across match results. -/
theorem C2_consumption_amended (sc : String → String → ℚ) (θ : ℚ)
    (left right : List String) (e : List (Nat × Nat))
    (f : List (Nat × Nat × ℚ)) (u : List Nat)
    (h : resolve sc θ left right = some (e, f, u)) :
    ∀ p ∈ f, ∃ a, (p.1, a) ∈ unmatchedLeft left right
      ∧ bestMatch sc a right = some (p.2.2, p.2.1) ∧ θ ≤ p.2.2 := by
  unfold resolve at h
  cases hfu : fuzzyPhase sc θ right (unmatchedLeft left right) with
  | none => rw [hfu] at h; cases h
  | some r =>
    obtain ⟨f0, u0⟩ := r
    rw [hfu, Option.map_some', Option.some_inj] at h
    have hf2 : f = f0 := (congrArg (fun x => x.2.1) h).symm
    subst hf2
    exact resolver_fullpool_aux sc θ right (unmatchedLeft left right) f u0 hfu

/-- C2 witness: the amended theorem at a run with one fuzzy match. -/
theorem C2_witness :
    ∃ a, ((0 : Nat), a) ∈ unmatchedLeft ["abcd"] ["abcdef"]
      ∧ bestMatch tokenSortRatio a ["abcdef"] = some ((80 : ℚ), 0)
      ∧ (80 : ℚ) ≤ 80 := by
  have hb1 : bestMatch tokenSortRatio "abcd" ["abcdef"]
      = some ((80 : ℚ), 0) := by
    rw [bestMatch_singleton, tsr_abcd]
  have hf1 : fuzzyPhase tokenSortRatio 80 ["abcdef"] [(0, "abcd")]
      = some ([(0, 0, 80)], []) :=
    fuzzyPhase_accept _ _ _ 0 "abcd" [] 80 0 [] [] hb1 rfl (by norm_num)
  have hres : resolve tokenSortRatio 80 ["abcd"] ["abcdef"]
      = some ([], [(0, 0, 80)], []) := by
    show (fuzzyPhase tokenSortRatio 80 ["abcdef"]
        (unmatchedLeft ["abcd"] ["abcdef"])).map _ = _
    rw [show unmatchedLeft ["abcd"] ["abcdef"] = [(0, "abcd")] from rfl, hf1]
    rfl
  exact C2_consumption_amended tokenSortRatio 80 ["abcd"] ["abcdef"]
    [] [(0, 0, 80)] [] hres (0, 0, 80) (List.mem_singleton_self _)

/-- C3: threshold boundary of the fuzzy phase with the hardcoded threshold
80 and scorer `token_sort_ratio`: for any completed run, an unmatched left
record whose best candidate scores exactly 80 is emitted as a fuzzy match,
and one whose best score is strictly below 80 is emitted as unresolved. -/
theorem C3_threshold_boundary (left right : List String)
    (e : List (Nat × Nat)) (f : List (Nat × Nat × ℚ)) (u : List Nat)
    (h : resolve tokenSortRatio 80 left right = some (e, f, u))
    (i : Nat) (a : String) (hmem : (i, a) ∈ unmatchedLeft left right)
    (s : ℚ) (j : Nat)
    (hb : bestMatch tokenSortRatio a right = some (s, j)) :
    (s = 80 → (i, j, s) ∈ f) ∧ (s < 80 → i ∈ u) := by
  unfold resolve at h
  cases hfu : fuzzyPhase tokenSortRatio 80 right (unmatchedLeft left right) with
  | none => rw [hfu] at h; cases h
  | some r =>
    obtain ⟨f0, u0⟩ := r
    rw [hfu, Option.map_some', Option.some_inj] at h
    have hf2 : f = f0 := (congrArg (fun x => x.2.1) h).symm
    have hu2 : u = u0 := (congrArg (fun x => x.2.2) h).symm
    rw [hf2, hu2]
    have := resolver_threshold_aux tokenSortRatio 80 right
      (unmatchedLeft left right) f0 u0 hfu i a hmem s j hb
    exact ⟨fun he => this.1 (le_of_eq he.symm), this.2⟩

/-- C3 witness: a best score of exactly 80 is matched, a best score of
200/3 < 80 is unresolved. -/
theorem C3_witness :
    ((0, 0, (80 : ℚ)) ∈ [((0 : Nat), (0 : Nat), (80 : ℚ))])
      ∧ (1 : Nat) ∈ [(1 : Nat)] := by
  have hb1 : bestMatch tokenSortRatio "abcd" ["abcdef"]
      = some ((80 : ℚ), 0) := by
    rw [bestMatch_singleton, tsr_abcd]
  have hb2 : bestMatch tokenSortRatio "abc" ["abcdef"]
      = some ((200 / 3 : ℚ), 0) := by
    rw [bestMatch_singleton, tsr_abc]
  have hf2 : fuzzyPhase tokenSortRatio 80 ["abcdef"] [(1, "abc")]
      = some ([], [1]) :=
    fuzzyPhase_reject _ _ _ 1 "abc" [] (200 / 3) 0 [] [] hb2 rfl (by norm_num)
  have hf1 : fuzzyPhase tokenSortRatio 80 ["abcdef"] [(0, "abcd"), (1, "abc")]
      = some ([(0, 0, 80)], [1]) :=
    fuzzyPhase_accept _ _ _ 0 "abcd" [(1, "abc")] 80 0 [] [1] hb1 hf2
      (by norm_num)
  have hres : resolve tokenSortRatio 80 ["abcd", "abc"] ["abcdef"]
      = some ([], [(0, 0, 80)], [1]) := by
    show (fuzzyPhase tokenSortRatio 80 ["abcdef"]
        (unmatchedLeft ["abcd", "abc"] ["abcdef"])).map _ = _
    rw [show unmatchedLeft ["abcd", "abc"] ["abcdef"]
        = [(0, "abcd"), (1, "abc")] from rfl, hf1]
    rfl
  have h1 := C3_threshold_boundary ["abcd", "abc"] ["abcdef"]
    [] [(0, 0, 80)] [1] hres 0 "abcd" (by decide) 80 0 hb1
  have h2 := C3_threshold_boundary ["abcd", "abc"] ["abcdef"]
    [] [(0, 0, 80)] [1] hres 1 "abc" (by decide) (200 / 3) 0 hb2
  exact ⟨h1.1 rfl, h2.2 (by norm_num)⟩

/-! ### Normalizer lemmas (C5) -/

/-- `keepAllowed` outputs only lowercase letters and spaces. -/
theorem keepAllowed_good (c : Char) :
    lowerAlpha (keepAllowed c) ∨ keepAllowed c = ' ' := by
  unfold keepAllowed
  by_cases h : lowerAlpha c ∨ c = ' '
  · rw [if_pos h]
    exact h
  · rw [if_neg h]
    exact Or.inr rfl

/-- Characters of `squeeze l` come from `l`. -/
theorem squeeze_subset : ∀ (l : List Char), ∀ c ∈ squeeze l, c ∈ l := by
  intro l
  induction l with
  | nil => intro c hc; simp [squeeze] at hc
  | cons a t ih =>
    cases t with
    | nil => intro c hc; simpa [squeeze] using hc
    | cons b r =>
      intro c hc
      simp only [squeeze] at hc
      by_cases hab : a = ' ' ∧ b = ' '
      · rw [if_pos hab] at hc
        exact List.mem_cons_of_mem a (ih c hc)
      · rw [if_neg hab] at hc
        rcases List.mem_cons.1 hc with rfl | hc2
        · exact List.mem_cons_self _ _
        · exact List.mem_cons_of_mem a (ih c hc2)

/-- `squeeze` is the identity on lists with no two adjacent spaces. -/
theorem squeeze_eq_self : ∀ (l : List Char),
    List.Chain' (fun x y => ¬(x = ' ' ∧ y = ' ')) l → squeeze l = l := by
  intro l
  induction l with
  | nil => intro _; rfl
  | cons a t ih =>
    cases t with
    | nil => intro _; rfl
    | cons b r =>
      intro h
      rw [List.chain'_cons] at h
      simp only [squeeze]
      rw [if_neg h.1, ih h.2]

/-- The head of `squeeze (b :: rest)` is `b` whenever `b` is not a space. -/
theorem squeeze_head_of_ne (b : Char) (rest : List Char) (hb : b ≠ ' ') :
    (squeeze (b :: rest)).head? = some b := by
  cases rest with
  | nil => rfl
  | cons c r =>
    simp only [squeeze]
    rw [if_neg (fun hand => hb hand.1)]
    rfl

/-- `squeeze` leaves no two adjacent spaces. -/
theorem squeeze_chain : ∀ (l : List Char),
    List.Chain' (fun x y => ¬(x = ' ' ∧ y = ' ')) (squeeze l) := by
  intro l
  induction l with
  | nil => simp [squeeze]
  | cons a t ih =>
    cases t with
    | nil => simp [squeeze]
    | cons b r =>
      simp only [squeeze]
      by_cases hab : a = ' ' ∧ b = ' '
      · rw [if_pos hab]
        exact ih
      · rw [if_neg hab]
        rw [List.chain'_cons']
        refine ⟨?_, ih⟩
        intro y hy
        by_cases hb : b = ' '
        · have ha : a ≠ ' ' := fun he => hab ⟨he, hb⟩
          exact fun hand => ha hand.1
        · rw [squeeze_head_of_ne b r hb] at hy
          simp only [Option.mem_def, Option.some_inj] at hy
          subst hy
          exact fun hand => hab hand

/-- The head of `dropWhile p` never satisfies `p`. -/
theorem head?_dropWhile_false (p : Char → Bool) :
    ∀ (l : List Char) (c : Char), (l.dropWhile p).head? = some c → p c = false := by
  intro l
  induction l with
  | nil => intro c hc; simp at hc
  | cons a t ih =>
    intro c hc
    rw [List.dropWhile_cons] at hc
    by_cases ha : p a = true
    · rw [if_pos ha] at hc
      exact ih c hc
    · rw [if_neg ha] at hc
      simp only [List.head?_cons, Option.some_inj] at hc
      subst hc
      exact Bool.not_eq_true _ ▸ ha

/-- `dropWhile` is the identity when the head fails the predicate. -/
theorem dropWhile_eq_self_of_head (p : Char → Bool) (l : List Char)
    (h : ∀ c, l.head? = some c → p c = false) : l.dropWhile p = l := by
  cases l with
  | nil => rfl
  | cons a t =>
    rw [List.dropWhile_cons, if_neg]
    rw [h a rfl]
    simp

/-- `dropWhile` keeps the last element when its output is nonempty. -/
theorem getLast?_dropWhile (p : Char → Bool) :
    ∀ (l : List Char), l.dropWhile p ≠ [] →
      (l.dropWhile p).getLast? = l.getLast? := by
  intro l
  induction l with
  | nil => intro h; rfl
  | cons a t ih =>
    intro h
    rw [List.dropWhile_cons] at h ⊢
    by_cases ha : p a = true
    · rw [if_pos ha] at h ⊢
      cases t with
      | nil => simp [List.dropWhile] at h
      | cons b r =>
        rw [List.getLast?_cons_cons]
        exact ih h
    · rw [if_neg ha]

/-- `asciify` is the identity when every character maps to itself. -/
theorem asciify_eq_self_of : ∀ (l : List Char),
    (∀ c ∈ l, asciifyChar c = [c]) → asciify l = l := by
  intro l
  induction l with
  | nil => intro _; rfl
  | cons c t ih =>
    intro hone
    show asciifyChar c ++ asciify t = c :: t
    rw [hone c (List.mem_cons_self _ _)]
    rw [ih (fun d hd => hone d (List.mem_cons_of_mem _ hd))]
    rfl

/-- C5: the text normalizer is idempotent over every nullable input,
normalizes `"José  Núñez"` to `"jose nunez"`, and maps null to the empty
string. -/
theorem C5_normalizer_idempotent :
    (∀ x : Option String,
        normalize_name (some (normalize_name x)) = normalize_name x)
    ∧ normalize_name (some "José  Núñez") = "jose nunez"
    ∧ normalize_name none = "" := by
  refine ⟨?_, rfl, rfl⟩
  intro x
  have key : ∀ s : String,
      normalize_name (some (normalize_name (some s))) = normalize_name (some s) := by
    intro s
    set Z := (asciify (s.data.map pyLower)).map keepAllowed with hZ
    set Y := trimSp (squeeze Z) with hYdef
    have hgood : ∀ c ∈ Y, lowerAlpha c ∨ c = ' ' := by
      intro c hc
      have hc2 : c ∈ squeeze Z := by
        have h1 : c ∈ rtrimSp (squeeze Z) := by
          have := (List.dropWhile_suffix (fun c => c = ' ')).subset hc
          exact this
        unfold rtrimSp at h1
        rw [List.mem_reverse] at h1
        have := (List.dropWhile_suffix (fun c => c = ' ')).subset h1
        rw [List.mem_reverse] at this
        exact this
      have hc3 : c ∈ Z := squeeze_subset Z c hc2
      rw [hZ] at hc3
      rcases List.mem_map.1 hc3 with ⟨d, _, hd⟩
      rw [← hd]
      exact keepAllowed_good d
    have hchain : List.Chain' (fun x y => ¬(x = ' ' ∧ y = ' ')) Y := by
      have h0 := squeeze_chain Z
      have h1 : List.Chain' (flip (fun x y : Char => ¬(x = ' ' ∧ y = ' ')))
          ((squeeze Z).reverse) := List.chain'_reverse.2 h0
      have h2 := h1.suffix (List.dropWhile_suffix (fun c => c = ' '))
      have h3 : List.Chain' (fun x y : Char => ¬(x = ' ' ∧ y = ' '))
          (rtrimSp (squeeze Z)) := List.chain'_reverse.2 h2
      exact h3.suffix (List.dropWhile_suffix (fun c => c = ' '))
    have hhead : ∀ c, Y.head? = some c → c ≠ ' ' := by
      intro c hc
      have := head?_dropWhile_false (fun c => c = ' ') (rtrimSp (squeeze Z)) c hc
      simpa using this
    have hlast : ∀ c, Y.getLast? = some c → c ≠ ' ' := by
      intro c hc
      have hne : Y ≠ [] := by
        intro he
        rw [he] at hc
        cases hc
      have h1 : Y.getLast? = (rtrimSp (squeeze Z)).getLast? :=
        getLast?_dropWhile _ _ hne
      rw [h1] at hc
      unfold rtrimSp at hc
      rw [List.getLast?_reverse] at hc
      have := head?_dropWhile_false (fun c => c = ' ') ((squeeze Z).reverse) c hc
      simpa using this
    have hlow : Y.map pyLower = Y := by
      refine map_eq_self_of_all ?_
      intro c hc
      rcases hgood c hc with h | h
      · unfold pyLower
        rw [if_neg]
        obtain ⟨h1, _⟩ := h
        intro hcon
        omega
      · subst h
        rfl
    have hasc : asciify Y = Y := by
      refine asciify_eq_self_of Y ?_
      intro c hc
      rcases hgood c hc with h | h
      · unfold asciifyChar
        rw [if_pos]
        obtain ⟨_, h2⟩ := h
        omega
      · subst h
        rfl
    have hkeep : Y.map keepAllowed = Y := by
      refine map_eq_self_of_all ?_
      intro c hc
      unfold keepAllowed
      rw [if_pos (hgood c hc)]
    have hsq : squeeze Y = Y := squeeze_eq_self Y hchain
    have htr : trimSp Y = Y := by
      have hr : rtrimSp Y = Y := by
        unfold rtrimSp ltrimSp
        rw [dropWhile_eq_self_of_head _ _ (fun c hc => by
          rw [List.head?_reverse] at hc
          simpa using hlast c hc)]
        exact List.reverse_reverse Y
      unfold trimSp ltrimSp
      rw [hr]
      exact dropWhile_eq_self_of_head _ _ (fun c hc => by
        simpa using hhead c hc)
    show String.mk (trimSp (squeeze ((asciify (Y.map pyLower)).map keepAllowed)))
        = String.mk Y
    rw [hlow, hasc, hkeep, hsq, htr]
  cases x with
  | none => rfl
  | some s => exact key s

/-! ### Crawler lemmas (C6, C9) -/

/-- `addUnique` preserves duplicate-freeness. -/
theorem addUnique_nodup (acc : List String) (u : String) (h : acc.Nodup) :
    (addUnique acc u).Nodup := by
  unfold addUnique
  by_cases hm : u ∈ acc
  · rw [if_pos hm]; exact h
  · rw [if_neg hm]
    simp [List.nodup_append, h, hm]

/-- The accumulator is a prefix of `addUnique acc u`. -/
theorem addUnique_isPre (acc : List String) (u : String) :
    acc <+: addUnique acc u := by
  unfold addUnique
  by_cases hm : u ∈ acc
  · rw [if_pos hm]
  · rw [if_neg hm]
    exact List.prefix_append acc [u]

/-- `addUnique` inserts the element into the collected set. -/
theorem addUnique_toFinset (acc : List String) (u : String) :
    (addUnique acc u).toFinset = insert u acc.toFinset := by
  unfold addUnique
  by_cases hm : u ∈ acc
  · rw [if_pos hm]
    exact (Finset.insert_eq_self.2 (List.mem_toFinset.2 hm)).symm
  · rw [if_neg hm, List.toFinset_append, List.toFinset_cons, List.toFinset_nil]
    rw [Finset.union_insert, Finset.union_empty]

/-- `addPage` preserves duplicate-freeness. -/
theorem addPage_nodup : ∀ (page : List String) (acc : List String),
    acc.Nodup → (addPage acc page).Nodup := by
  intro page
  induction page with
  | nil => intro acc h; exact h
  | cons u p ih =>
    intro acc h
    exact ih (addUnique acc u) (addUnique_nodup acc u h)

/-- The accumulator is a prefix of `addPage acc page`. -/
theorem addPage_isPre : ∀ (page : List String) (acc : List String),
    acc <+: addPage acc page := by
  intro page
  induction page with
  | nil => intro acc; exact List.prefix_refl acc
  | cons u p ih =>
    intro acc
    exact (addUnique_isPre acc u).trans (ih (addUnique acc u))

/-- `addPage` collects exactly the union of the page's items. -/
theorem addPage_toFinset : ∀ (page : List String) (acc : List String),
    (addPage acc page).toFinset = acc.toFinset ∪ page.toFinset := by
  intro page
  induction page with
  | nil => intro acc; simp [addPage]
  | cons u p ih =>
    intro acc
    show (addPage (addUnique acc u) p).toFinset = _
    rw [ih (addUnique acc u), addUnique_toFinset, List.toFinset_cons]
    rw [Finset.insert_union, Finset.union_insert]

/-- First-occurrence dedup is the identity on duplicate-free lists;
general form over a seed accumulator. -/
theorem foldl_addUnique_nodup : ∀ (l acc : List String),
    (acc ++ l).Nodup → l.foldl addUnique acc = acc ++ l := by
  intro l
  induction l with
  | nil => intro acc _; simp
  | cons x t ih =>
    intro acc h
    have hx : x ∉ acc := by
      intro hm
      rw [show acc ++ x :: t = (acc ++ [x]) ++ t by simp] at h
      have := (h.sublist (List.sublist_append_left (acc ++ [x]) t))
      simp [List.nodup_append] at this
      exact this.2 hm
    show t.foldl addUnique (addUnique acc x) = acc ++ x :: t
    have ha : addUnique acc x = acc ++ [x] := by
      unfold addUnique
      rw [if_neg hx]
    rw [ha]
    have h2 : ((acc ++ [x]) ++ t).Nodup := by
      rw [List.append_assoc]
      simpa using h
    rw [ih (acc ++ [x]) h2]
    simp

/-- `dedupFirst` is the identity on duplicate-free lists. -/
theorem dedupFirst_eq_self (l : List String) (h : l.Nodup) :
    dedupFirst l = l := by
  unfold dedupFirst
  have := foldl_addUnique_nodup l [] (by simpa using h)
  simpa using this

/-- The capped player crawl collects exactly
`min k (|already collected| ∪ |available unique items|)` many items. -/
theorem playerCrawl_capped (k : Nat) :
    ∀ (pages : List (List String)) (acc : List String),
      acc.Nodup → acc.length ≤ k →
      (playerCrawl (some k) pages acc).length
        = min k (acc.toFinset ∪ pages.flatten.toFinset).card := by
  intro pages
  induction pages with
  | nil =>
    intro acc h1 h2
    show acc.length = min k (acc.toFinset ∪ ([] : List (List String)).flatten.toFinset).card
    rw [List.flatten_nil, List.toFinset_nil, Finset.union_empty,
      List.toFinset_card_of_nodup h1]
    omega
  | cons page rest ih =>
    intro acc h1 h2
    simp only [playerCrawl]
    have hnd2 : (addPage acc page).Nodup := addPage_nodup page acc h1
    have hcard : (addPage acc page).toFinset.card = (addPage acc page).length :=
      List.toFinset_card_of_nodup hnd2
    by_cases hk : k ≤ (addPage acc page).length
    · rw [if_pos hk, List.length_take]
      have hsub : (addPage acc page).toFinset
          ⊆ acc.toFinset ∪ (page :: rest).flatten.toFinset := by
        rw [addPage_toFinset, List.flatten_cons, List.toFinset_append,
          ← Finset.union_assoc]
        exact Finset.subset_union_left
      have hle := Finset.card_le_card hsub
      omega
    · rw [if_neg hk]
      rw [ih (addPage acc page) hnd2 (by omega)]
      rw [addPage_toFinset, List.flatten_cons, List.toFinset_append,
        Finset.union_assoc]

/-- One page of the club scraper's capped collection is a truncation of the
uncapped dedup-append. -/
theorem clubNewGo_take (acc : List String) (r : Nat) :
    ∀ (page ns : List String), ns.length < r →
      acc ++ clubNewGo acc (some r) page ns
        = (addPage (acc ++ ns) page).take (acc.length + r) := by
  intro page
  induction page with
  | nil =>
    intro ns h
    show acc ++ ns = (acc ++ ns).take (acc.length + r)
    rw [List.take_of_length_le (by rw [List.length_append]; omega)]
  | cons cu rest ih =>
    intro ns h
    simp only [clubNewGo]
    by_cases hm : cu ∈ acc ∨ cu ∈ ns
    · rw [if_pos hm]
      have hadd : addUnique (acc ++ ns) cu = acc ++ ns := by
        unfold addUnique
        rw [if_pos (List.mem_append.2 hm)]
      show acc ++ clubNewGo acc (some r) rest ns
          = (addPage (addUnique (acc ++ ns) cu) rest).take (acc.length + r)
      rw [hadd]
      exact ih ns h
    · rw [if_neg hm]
      have hadd : addUnique (acc ++ ns) cu = acc ++ (ns ++ [cu]) := by
        unfold addUnique
        rw [if_neg (fun hmem => hm (List.mem_append.1 hmem)), List.append_assoc]
      by_cases hr : r ≤ (ns ++ [cu]).length
      · rw [if_pos hr]
        have hlen : (acc ++ (ns ++ [cu])).length = acc.length + r := by
          simp only [List.length_append, List.length_singleton] at h hr ⊢
          omega
        show acc ++ (ns ++ [cu])
            = (addPage (addUnique (acc ++ ns) cu) rest).take (acc.length + r)
        rw [hadd]
        obtain ⟨t, ht⟩ := addPage_isPre rest (acc ++ (ns ++ [cu]))
        rw [← ht, ← hlen, List.take_left]
      · rw [if_neg hr]
        have hlt : (ns ++ [cu]).length < r := by
          simp only [List.length_append, List.length_singleton] at hr ⊢
          omega
        have := ih (ns ++ [cu]) hlt
        show acc ++ clubNewGo acc (some r) rest (ns ++ [cu])
            = (addPage (addUnique (acc ++ ns) cu) rest).take (acc.length + r)
        rw [hadd]
        exact this

/-- `clubNew` with a positive remaining budget truncates `addPage`. -/
theorem clubNew_take (acc page : List String) (r : Nat) (hr : 0 < r) :
    acc ++ clubNew acc page (some r) = (addPage acc page).take (acc.length + r) := by
  have h := clubNewGo_take acc r page [] (by simpa using hr)
  rw [List.append_nil] at h
  exact h

/-- Below the cap, the club scraper's collection loop computes the same
collected list as the player scraper's (truncate-at-cap) loop. -/
theorem clubCrawlF_eq_playerCrawl (k : Nat) :
    ∀ (pages : List (List String)) (acc file : List String),
      acc.length < k →
      (clubCrawlF (some k) pages acc file).1 = playerCrawl (some k) pages acc := by
  intro pages
  induction pages with
  | nil => intro acc file _; rfl
  | cons page rest ih =>
    intro acc file hlt
    simp only [clubCrawlF, playerCrawl]
    have htr : limitTruthy (some k) = true := by
      simp only [limitTruthy]
      simp
      omega
    rw [if_neg (fun hand => by
      have h2 := hand.2
      simp only [Option.getD_some] at h2
      omega)]
    rw [if_pos htr]
    have hrpos : 0 < k - acc.length := by omega
    rw [show (some k).getD 0 = k from rfl]
    have hteq := clubNew_take acc page (k - acc.length) hrpos
    rw [show acc.length + (k - acc.length) = k by omega] at hteq
    rw [hteq]
    by_cases hk : k ≤ (addPage acc page).length
    · have hc : k ≤ (List.take k (addPage acc page)).length := by
        rw [List.length_take]
        omega
      rw [if_pos ⟨htr, hc⟩, if_pos hk]
    · have hc : ¬ (limitTruthy (some k) = true
          ∧ k ≤ (List.take k (addPage acc page)).length) := by
        intro hand
        have h2 := hand.2
        rw [List.length_take] at h2
        omega
      rw [if_neg hc, if_neg hk]
      rw [List.take_of_length_le (by omega)]
      exact ih (addPage acc page) _ (by omega)

/-- The checkpoint file only ever grows: the starting file content is a
prefix of the file after any club scraper run. -/
theorem clubCrawlF_file_isPre (limit : Option Nat) :
    ∀ (pages : List (List String)) (acc file : List String),
      file <+: (clubCrawlF limit pages acc file).2 := by
  intro pages
  induction pages with
  | nil => intro acc file; exact List.prefix_refl file
  | cons page rest ih =>
    intro acc file
    simp only [clubCrawlF]
    by_cases hc1 : limitTruthy limit = true ∧ limit.getD 0 ≤ acc.length
    · rw [if_pos hc1]
    · rw [if_neg hc1]
      by_cases hc2 : limitTruthy limit = true
        ∧ limit.getD 0 ≤ (acc ++ clubNew acc page
          (if limitTruthy limit = true then some (limit.getD 0 - acc.length) else none)).length
      · rw [if_pos hc2]
        exact List.prefix_append file _
      · rw [if_neg hc2]
        exact (List.prefix_append file _).trans (ih _ _)

/-- The club checkpoint file is always the header followed by exactly the
collected URLs: the invariant `file = header :: collected` is preserved by
every page, under any limit. -/
theorem clubCrawlF_file_exact (limit : Option Nat) (header : String) :
    ∀ (pages : List (List String)) (acc : List String),
      (clubCrawlF limit pages acc (header :: acc)).2
        = header :: (clubCrawlF limit pages acc (header :: acc)).1 := by
  intro pages
  induction pages with
  | nil => intro acc; rfl
  | cons page rest ih =>
    intro acc
    simp only [clubCrawlF]
    by_cases hc1 : limitTruthy limit = true ∧ limit.getD 0 ≤ acc.length
    · rw [if_pos hc1]
    · rw [if_neg hc1]
      have hcons : (header :: acc) ++ clubNew acc page
          (if limitTruthy limit = true then some (limit.getD 0 - acc.length) else none)
          = header :: (acc ++ clubNew acc page
            (if limitTruthy limit = true then some (limit.getD 0 - acc.length) else none)) :=
        List.cons_append ..
      by_cases hc2 : limitTruthy limit = true
        ∧ limit.getD 0 ≤ (acc ++ clubNew acc page
          (if limitTruthy limit = true then some (limit.getD 0 - acc.length) else none)).length
      · rw [if_pos hc2]
        exact hcons
      · rw [if_neg hc2]
        rw [hcons]
        exact ih _

/-- A prefix of `l2` is a prefix of `l2.take k` when it fits in `k`. -/
theorem isPre_take {l1 l2 : List String} (h : l1 <+: l2) (k : Nat)
    (hk : l1.length ≤ k) : l1 <+: l2.take k := by
  obtain ⟨t, rfl⟩ := h
  rw [List.take_append_eq_append_take, List.take_of_length_le hk]
  exact List.prefix_append l1 _

/-- Every state persisted by the player crawl is duplicate-free. -/
theorem playerStates_nodup (limit : Option Nat) :
    ∀ (pages : List (List String)) (acc : List String), acc.Nodup →
      ∀ st ∈ playerStates limit pages acc, st.Nodup := by
  intro pages
  induction pages with
  | nil => intro acc _ st hst; simp [playerStates] at hst
  | cons page rest ih =>
    intro acc h1 st hst
    have hnd2 : (addPage acc page).Nodup := addPage_nodup page acc h1
    cases limit with
    | none =>
      simp only [playerStates] at hst
      rcases List.mem_cons.1 hst with rfl | hst2
      · exact hnd2
      · exact ih (addPage acc page) hnd2 st hst2
    | some k =>
      simp only [playerStates] at hst
      by_cases hk : k ≤ (addPage acc page).length
      · rw [if_pos hk] at hst
        simp only [List.mem_singleton] at hst
        subst hst
        exact hnd2.sublist (List.take_sublist k _)
      · rw [if_neg hk] at hst
        rcases List.mem_cons.1 hst with rfl | hst2
        · exact hnd2
        · exact ih (addPage acc page) hnd2 st hst2

/-- Successive checkpoint snapshots written by the player scraper extend
one another: each file state (header plus first-occurrence dedup of the
collected list) is a prefix of the next. -/
theorem playerFiles_chain (limit : Option Nat) :
    ∀ (pages : List (List String)) (acc : List String),
      acc.Nodup → (∀ k, limit = some k → acc.length ≤ k) →
      List.Chain' (fun a b => a <+: b)
        ((acc :: playerStates limit pages acc).map
          (fun st => "player_url" :: dedupFirst st)) := by
  intro pages
  induction pages with
  | nil => intro acc _ _; simp [playerStates]
  | cons page rest ih =>
    intro acc h1 h2
    have hnd2 : (addPage acc page).Nodup := addPage_nodup page acc h1
    cases limit with
    | none =>
      simp only [playerStates, List.map_cons]
      rw [List.chain'_cons]
      constructor
      · rw [dedupFirst_eq_self acc h1, dedupFirst_eq_self _ hnd2]
        exact List.cons_prefix_cons.2 ⟨rfl, addPage_isPre page acc⟩
      · have := ih (addPage acc page) hnd2 (fun k hk => by cases hk)
        rw [List.map_cons] at this
        exact this
    | some k =>
      simp only [playerStates]
      by_cases hk : k ≤ (addPage acc page).length
      · rw [if_pos hk]
        simp only [List.map_cons, List.map_nil]
        rw [List.chain'_cons]
        constructor
        · rw [dedupFirst_eq_self acc h1,
            dedupFirst_eq_self _ (hnd2.sublist (List.take_sublist k _))]
          exact List.cons_prefix_cons.2
            ⟨rfl, isPre_take (addPage_isPre page acc) k (h2 k rfl)⟩
        · simp
      · rw [if_neg hk]
        simp only [List.map_cons]
        rw [List.chain'_cons]
        constructor
        · rw [dedupFirst_eq_self acc h1, dedupFirst_eq_self _ hnd2]
          exact List.cons_prefix_cons.2 ⟨rfl, addPage_isPre page acc⟩
        · have := ih (addPage acc page) hnd2
            (fun k2 hk2 => by
              have : k2 = k := by
                injection hk2.symm
              subst this
              omega)
          rw [List.map_cons] at this
          exact this

/-- C6: cap exactness of both URL scrapers.  The player crawl never holds
more than `k` items after any page when started within the cap, and from
an empty start it collects exactly `min k (available unique items)`; the
club crawl, for any positive cap `k` (a zero limit disables the cap, see
C10), collects exactly `min k (available unique items)` as well. -/
theorem C6_cap_exactness :
    (∀ (k : Nat) (pages : List (List String)) (acc : List String),
        acc.Nodup → acc.length ≤ k →
        (playerCrawl (some k) pages acc).length ≤ k)
    ∧ (∀ (k : Nat) (pages : List (List String)),
        (playerCrawl (some k) pages []).length
          = min k pages.flatten.toFinset.card)
    ∧ (∀ (k : Nat) (pages : List (List String)), 0 < k →
        (clubCrawl (some k) pages []).length
          = min k pages.flatten.toFinset.card) := by
  refine ⟨?_, ?_, ?_⟩
  · intro k pages acc h1 h2
    rw [playerCrawl_capped k pages acc h1 h2]
    omega
  · intro k pages
    have := playerCrawl_capped k pages [] List.nodup_nil (by simp)
    simpa using this
  · intro k pages hk
    unfold clubCrawl
    rw [clubCrawlF_eq_playerCrawl k pages [] [] (by simpa using hk)]
    have := playerCrawl_capped k pages [] List.nodup_nil (by simp)
    simpa using this

/-- C6 witness: cap 1 over a page of two items collects exactly one. -/
theorem C6_witness :
    (playerCrawl (some 1) [["a", "b"]] []).length ≤ 1
    ∧ (clubCrawl (some 1) [["a", "b"]] []).length
        = min 1 ([["a", "b"]] : List (List String)).flatten.toFinset.card := by
  constructor
  · exact C6_cap_exactness.1 1 [["a", "b"]] [] (by decide) (by decide)
  · exact C6_cap_exactness.2.2 1 [["a", "b"]] (by decide)

/-- C9: checkpointing is synchronous and append-only.  For the club
scraper: the starting file content is a prefix of the file after the run
(no persisted row is rewritten or removed), and the invariant
`file = header :: collected` — the file holds the stable header plus
exactly the accepted items — is preserved through every page, each batch
being appended before the cursor advances.  For the player scraper: the
per-page saved snapshots (header plus first-occurrence dedup of the
collected list) form a prefix chain, and each snapshot's rows are exactly
the items accepted so far. -/
theorem C9_checkpoint_append_only :
    (∀ (limit : Option Nat) (pages : List (List String)) (acc file : List String),
        file <+: (clubCrawlF limit pages acc file).2)
    ∧ (∀ (limit : Option Nat) (pages : List (List String)) (acc : List String),
        (clubCrawlF limit pages acc ("club_url" :: acc)).2
          = "club_url" :: (clubCrawlF limit pages acc ("club_url" :: acc)).1)
    ∧ (∀ (limit : Option Nat) (pages : List (List String)) (acc : List String),
        acc.Nodup → (∀ k, limit = some k → acc.length ≤ k) →
        List.Chain' (fun a b => a <+: b)
          ((acc :: playerStates limit pages acc).map
            (fun st => "player_url" :: dedupFirst st)))
    ∧ (∀ (limit : Option Nat) (pages : List (List String)) (acc : List String),
        acc.Nodup → ∀ st ∈ playerStates limit pages acc,
          "player_url" :: dedupFirst st = "player_url" :: st) := by
  refine ⟨fun limit => clubCrawlF_file_isPre limit,
    fun limit => clubCrawlF_file_exact limit "club_url",
    fun limit => playerFiles_chain limit, ?_⟩
  intro limit pages acc h st hst
  rw [dedupFirst_eq_self st (playerStates_nodup limit pages acc h st hst)]

/-- C9 witness: the theorem applied to one-page runs. -/
theorem C9_witness :
    ["club_url"] <+: (clubCrawlF none [["a"]] [] ["club_url"]).2
    ∧ (clubCrawlF none [["a"]] [] ["club_url"]).2
        = "club_url" :: (clubCrawlF none [["a"]] [] ["club_url"]).1
    ∧ List.Chain' (fun a b => a <+: b)
        (([] :: playerStates none [["a"]] []).map
          (fun st => "player_url" :: dedupFirst st)) := by
  refine ⟨C9_checkpoint_append_only.1 none [["a"]] [] ["club_url"], ?_, ?_⟩
  · exact C9_checkpoint_append_only.2.1 none [["a"]] []
  · exact C9_checkpoint_append_only.2.2.1 none [["a"]] [] (by decide)
      (fun k hk => by cases hk)

end Football
